import Mathlib

/-!
Verification of the prefix-grouped NetCDF merger script
(source: `CLimate Data Clean.py`).

The script scans the directory `Base Climate Data` for files ending in
`.nc`, groups them by the token before the first underscore of the
filename, opens each file as a dataset, collects per-variable metadata
records, concatenates each group along the time dimension, derives an
output path from the group key and the first recorded variable name,
writes the combined dataset, and prints a report.

The embedding below is parameterised by the directory listing (a list of
filenames in filesystem order) and by an oracle mapping each file path to
the dataset it contains, so that the purely file-system-independent logic
of the script can be stated and proved.
-/

namespace ClimateClean

/-- A data variable of a NetCDF dataset: its name, its attribute mapping
(`dataset[var_name].attrs`), and its values along the time dimension. -/
structure DataVar where
  name : String
  attrs : List (String × String)
  data : List Int
deriving DecidableEq, Repr

/-- A NetCDF dataset as the script uses it: a time coordinate and an
ordered family of data variables (`dataset.data_vars` iterates in
dataset-declared order). -/
structure Dataset where
  time : List Int
  data_vars : List DataVar
deriving DecidableEq, Repr

/-- One entry of the `data_names` list accumulated by the script:
`{"file_name": ..., "variable_name": ..., "attributes": ...}`. -/
structure MetadataRecord where
  file_name : String
  variable_name : String
  attributes : List (String × String)
deriving DecidableEq, Repr

/-- The fixed input directory constant `search_directory` of the script. -/
def search_directory : String := "Base Climate Data"

/-- Python's `s.endswith(suf)`: `suf` is a suffix of `s`. -/
def pyEndsWith (s suf : String) : Bool :=
  List.isSuffixOf suf.data s.data

/-- `all_files`: the list comprehension
`[f for f in os.listdir(search_directory) if f.endswith(".nc")]`,
with the `os.listdir` result abstracted as the `listing` parameter. -/
def all_files (listing : List String) : List String :=
  listing.filter (fun f => pyEndsWith f ".nc")

/-- The characters of `s.split("_")[0]` in Python: the longest initial
run of characters of `s` that contains no underscore. -/
def pySplitHeadData (s : List Char) : List Char :=
  s.takeWhile (fun c => c ≠ '_')

/-- `f.split("_")[0]` in Python: the substring of `f` before the first
underscore, or all of `f` when it has no underscore. -/
def pySplitHead (f : String) : String :=
  ⟨pySplitHeadData f.data⟩

/-- `os.path.join(d, f)` for a bare directory-entry name `f` (entries
returned by `os.listdir` contain no path separator and are never
absolute, so the join is plain concatenation with a separator). -/
def joinPath (d f : String) : String :=
  d ++ "/" ++ f

/-- `os.path.basename(p)`: the part of `p` after its last slash. -/
def basename (p : String) : String :=
  ⟨p.data.foldl (fun acc c => if c = '/' then [] else acc ++ [c]) []⟩

/-- Append one file (already joined with the directory) to the group of
its key in an insertion-ordered association list, mirroring one step of
`files_by_prefix[prefix].append(os.path.join(search_directory, f))` on a
`defaultdict(list)`: an existing key keeps its position and grows its
list; a new key is appended at the end. -/
def insertGroup (m : List (String × List String)) (k v : String) :
    List (String × List String) :=
  match m with
  | [] => [(k, [v])]
  | (k₁, vs) :: rest =>
      if k₁ = k then (k₁, vs ++ [v]) :: rest
      else (k₁, vs) :: insertGroup rest k v

/-- `files_by_prefix`: the grouping loop of the script,
`for f in all_files: files_by_prefix[f.split("_")[0]].append(join(dir, f))`,
as an insertion-ordered association list (Python dicts preserve
insertion order). -/
def files_by_pfx (listing : List String) : List (String × List String) :=
  (all_files listing).foldl
    (fun m f => insertGroup m (pySplitHead f) (joinPath search_directory f)) []

/-- The metadata record the script builds for variable `v` of the file at
path `fp`. -/
def mkRecord (fp : String) (v : DataVar) : MetadataRecord :=
  { file_name := basename fp
  , variable_name := v.name
  , attributes := v.attrs }

/-- The per-group file loop of the script: for each path open the
dataset, append it to `datasets`, and append one metadata record per
data variable to `data_names`, in file order then variable order.
`op` abstracts `xr.open_dataset`. -/
def processFiles (op : String → Dataset) (file_paths : List String) :
    List Dataset × List MetadataRecord :=
  file_paths.foldl
    (fun acc fp =>
      let dataset := op fp
      ( acc.1 ++ [dataset]
      , acc.2 ++ dataset.data_vars.map (mkRecord fp) ))
    ([], [])

/-- Modelled from the spec: the data of variable `n` in dataset `d`
(datasets index their variables by name). The library call
`xr.concat` is external code, absent from the repository. -/
def varData (d : Dataset) (n : String) : List Int :=
  match d.data_vars.find? (fun v => v.name = n) with
  | some v => v.data
  | none => []

/-- Modelled from the spec: `xr.concat(datasets, dim="time")`, which is
external library code. Per the spec, the datasets of a group are joined
along the time axis strictly by position as provided, in list order:
the combined time coordinate is the concatenation of the per-dataset
time coordinates and each variable's values are the concatenation of
that variable's values across the datasets. -/
def concatTime (ds : List Dataset) : Dataset :=
  match ds with
  | [] => { time := [], data_vars := [] }
  | d :: _ =>
      { time := ds.flatMap (fun x => x.time)
      , data_vars := d.data_vars.map (fun v =>
          { v with data := ds.flatMap (fun x => varData x v.name) }) }

/-- The output-path derivation of the script:
if `data_names` is nonempty the path is
`f"src/data/Processed Climate Data/combined_{prefix}_{first variable}_data.nc"`,
otherwise it is
`f"/src/data/Processed Climate Data/combined_{prefix}_climate_data.nc"`
(note the leading slash in the source's fallback branch). -/
def output_path (k : String) (data_names : List MetadataRecord) : String :=
  match data_names with
  | entry :: _ =>
      "src/data/Processed Climate Data/combined_" ++ k ++ "_"
        ++ entry.variable_name ++ "_data.nc"
  | [] =>
      "/src/data/Processed Climate Data/combined_" ++ k ++ "_climate_data.nc"

/-- The keys of the grouping map, in insertion order. -/
def keysOf (m : List (String × List String)) : List String :=
  m.map Prod.fst

/-- Lookup in the insertion-ordered association list (the first — and,
as proved below, only — entry with the given key). -/
def lookupA (m : List (String × List String)) (k : String) :
    Option (List String) :=
  match m with
  | [] => none
  | (k₁, vs) :: rest => if k₁ = k then some vs else lookupA rest k

/-- The sequence of distinct elements of a list in order of first
occurrence; used to characterise the insertion order of the grouping
map's keys. -/
def firstOccs (l : List String) : List String :=
  match l with
  | [] => []
  | x :: xs => x :: (firstOccs xs).filter (fun y => y ≠ x)

/-- An observable side effect of the main loop: writing the combined
dataset to a path (`combined_data.to_netcdf`), or printing one line of
the report (the saved-to line, the `Extracted Metadata:` header, or one
metadata entry). -/
inductive Event where
  | write (path : String) (d : Dataset)
  | printSaved (k path : String)
  | printHeader
  | printEntry (r : MetadataRecord)
deriving DecidableEq, Repr

/-- Whether an event is a print (any line of the console report). -/
def Event.isPrint : Event → Bool
  | .write _ _ => false
  | _ => true

/-- The side effects of the body of the main loop for one group, in the
order the script performs them: write the combined dataset, print the
saved-to line, print the header, print every metadata entry in
accumulation order. -/
def groupEvents (op : String → Dataset) (k : String)
    (file_paths : List String) : List Event :=
  let acc := processFiles op file_paths
  let combined := concatTime acc.1
  let out := output_path k acc.2
  Event.write out combined :: Event.printSaved k out :: Event.printHeader
    :: acc.2.map Event.printEntry

/-- The full side-effect trace of the script's main loop: the groups of
`files_by_prefix` processed strictly in map order, each contributing its
block of events. -/
def runEvents (op : String → Dataset) (listing : List String) : List Event :=
  (files_by_pfx listing).foldl (fun acc g => acc ++ groupEvents op g.1 g.2) []

/-- The per-group file loop with a fallible `xr.open_dataset` oracle:
Python raises out of the loop at the first failing open, so the
recursion stops and propagates the first error; on success it
accumulates datasets and metadata records exactly as `processFiles`. -/
def openFilesE (op : String → Except String Dataset) :
    List String → List Dataset × List MetadataRecord →
    Except String (List Dataset × List MetadataRecord)
  | [], acc => .ok acc
  | fp :: rest, acc =>
      match op fp with
      | .error e => .error e
      | .ok dataset =>
          openFilesE op rest
            (acc.1 ++ [dataset], acc.2 ++ dataset.data_vars.map (mkRecord fp))

/-- The body of the main loop for one group with fallible stages:
open all files (any open failure propagates), concatenate (`con`
abstracts `xr.concat`, which raises on axis mismatch), derive the output
path, write (`wr` abstracts `to_netcdf`, which raises on write failure).
There is no `try`/`except` anywhere in the script, so each stage's error
propagates unchanged. Returns the written path on success. -/
def stepGroupE (op : String → Except String Dataset)
    (con : List Dataset → Except String Dataset)
    (wr : String → Dataset → Except String Unit)
    (g : String × List String) : Except String String :=
  match openFilesE op g.2 ([], []) with
  | .error e => .error e
  | .ok acc =>
      match con acc.1 with
      | .error e => .error e
      | .ok combined =>
          match wr (output_path g.1 acc.2) combined with
          | .error e => .error e
          | .ok _ => .ok (output_path g.1 acc.2)

/-- The main loop over the groups with fallible per-group processing:
groups are processed sequentially; a successful group appends its output
path to the list of artifacts already on disk; an unhandled error aborts
the whole run immediately, leaving exactly the artifacts written so far
on disk and returning the error. -/
def runGroupsE (step : String × List String → Except String String) :
    List (String × List String) → List String → List String × Option String
  | [], written => (written, none)
  | g :: gs, written =>
      match step g with
      | .ok out => runGroupsE step gs (written ++ [out])
      | .error e => (written, some e)

/-- The grouping fold of `files_by_prefix` over an arbitrary file list,
used to reason about the fold by induction on the list of discovered
files; `files_by_pfx listing` is definitionally
`groupFold (all_files listing)`. -/
def groupFold (fs : List String) : List (String × List String) :=
  fs.foldl
    (fun m f => insertGroup m (pySplitHead f) (joinPath search_directory f)) []

/-- Written to the SPEC's words, for comparison with the code: the stem
of a filename, i.e. the filename without its extension (the characters
before the last dot). -/
def stemOf (s : String) : String :=
  ⟨stemData s.data⟩
where
  stemData : List Char → List Char
    | [] => []
    | c :: cs =>
        if '.' ∈ cs then c :: stemData cs
        else if c = '.' then [] else c :: stemData cs

/-- Concrete `xr.open_dataset` oracle for the group `x` with files
`x_A.nc` (variables `pressure` then `temp`) and `x_B.nc` (variable
`temp`): both files contain the variable `temp`, but `temp` is not the
first variable declared in `x_A.nc`. -/
def c3open : String → Dataset := fun fp =>
  if fp = "Base Climate Data/x_A.nc" then
    { time := [1]
    , data_vars :=
        [ { name := "pressure", attrs := [], data := [3] }
        , { name := "temp", attrs := [], data := [4] } ] }
  else
    { time := [2], data_vars := [{ name := "temp", attrs := [], data := [5] }] }

/-- Concrete fallible `xr.open_dataset` oracle: opening `b_1.nc` raises,
every other open succeeds with an empty dataset. -/
def c8op : String → Except String Dataset := fun fp =>
  if fp = "Base Climate Data/b_1.nc" then Except.error "boom"
  else Except.ok { time := [1], data_vars := [] }

/-- Concrete `xr.concat` oracle that always succeeds. -/
def c8con : List Dataset → Except String Dataset := fun ds =>
  Except.ok (concatTime ds)

/-- Concrete `to_netcdf` oracle that always succeeds. -/
def c8wr : String → Dataset → Except String Unit := fun _ _ =>
  Except.ok ()

/-! ### Lemmas about the grouping map -/

theorem keysOf_insertGroup (m : List (String × List String)) (k v : String) :
    keysOf (insertGroup m k v) =
      if k ∈ keysOf m then keysOf m else keysOf m ++ [k] := by
  induction m with
  | nil => simp [insertGroup, keysOf]
  | cons hd tl ih =>
      obtain ⟨k₁, vs⟩ := hd
      by_cases h : k₁ = k
      · subst h
        simp [insertGroup, keysOf]
      · have hins : insertGroup ((k₁, vs) :: tl) k v =
            (k₁, vs) :: insertGroup tl k v := by
          simp [insertGroup, h]
        have hk₁ : keysOf ((k₁, vs) :: insertGroup tl k v) =
            k₁ :: keysOf (insertGroup tl k v) := rfl
        have hk₂ : keysOf ((k₁, vs) :: tl) = k₁ :: keysOf tl := rfl
        rw [hins, hk₁, hk₂, ih]
        by_cases hm : k ∈ keysOf tl
        · rw [if_pos hm, if_pos (List.mem_cons_of_mem _ hm)]
        · rw [if_neg hm, if_neg ?_]
          · rfl
          · simp [hm, Ne.symm h]

theorem lookupA_insertGroup (m : List (String × List String)) (k v k₁ : String) :
    lookupA (insertGroup m k v) k₁ =
      if k₁ = k then some (((lookupA m k).getD []) ++ [v])
      else lookupA m k₁ := by
  induction m with
  | nil =>
      by_cases h : k₁ = k
      · subst h
        simp [insertGroup, lookupA]
      · simp [insertGroup, lookupA, h, Ne.symm h]
  | cons hd tl ih =>
      obtain ⟨k₂, vs⟩ := hd
      by_cases h : k₂ = k
      · subst h
        by_cases h₁ : k₁ = k₂
        · subst h₁
          simp [insertGroup, lookupA]
        · simp [insertGroup, lookupA, h₁, Ne.symm h₁]
      · by_cases h₁ : k₁ = k₂
        · subst h₁
          simp [insertGroup, lookupA, h]
        · simp [insertGroup, lookupA, h, h₁, Ne.symm h₁, ih]

theorem firstOccs_append (l : List String) (x : String) :
    firstOccs (l ++ [x]) =
      if x ∈ l then firstOccs l else firstOccs l ++ [x] := by
  induction l with
  | nil => simp [firstOccs]
  | cons y l ih =>
      by_cases hxl : x ∈ l
      · simp [firstOccs, ih, hxl]
      · by_cases hxy : x = y
        · subst hxy
          simp [firstOccs, ih, hxl, List.filter_append]
        · simp [firstOccs, ih, hxl, hxy, List.filter_append]

theorem mem_firstOccs (l : List String) (x : String) :
    x ∈ firstOccs l ↔ x ∈ l := by
  induction l with
  | nil => simp [firstOccs]
  | cons y l ih =>
      by_cases hxy : x = y
      · subst hxy
        simp [firstOccs]
      · simp [firstOccs, hxy, List.mem_filter, ih]

theorem nodup_firstOccs (l : List String) : (firstOccs l).Nodup := by
  induction l with
  | nil => simp [firstOccs]
  | cons y l ih =>
      refine List.Nodup.cons ?_ (ih.filter _)
      intro hmem
      have := List.of_mem_filter hmem
      simp at this

theorem keysOf_groupFold (fs : List String) :
    keysOf (groupFold fs) = firstOccs (fs.map pySplitHead) := by
  induction fs using List.reverseRecOn with
  | nil => simp [groupFold, keysOf, firstOccs]
  | append_singleton l a ih =>
      have hfold : groupFold (l ++ [a]) =
          insertGroup (groupFold l) (pySplitHead a)
            (joinPath search_directory a) := by
        simp [groupFold, List.foldl_append]
      rw [hfold, keysOf_insertGroup, ih, List.map_append, List.map_singleton,
        firstOccs_append]
      by_cases h : pySplitHead a ∈ l.map pySplitHead
      · simp [h, mem_firstOccs]
      · simp [h, mem_firstOccs]

theorem lookupA_groupFold (fs : List String) (k : String) :
    lookupA (groupFold fs) k =
      if k ∈ fs.map pySplitHead then
        some ((fs.filter (fun f => pySplitHead f = k)).map
          (joinPath search_directory))
      else none := by
  induction fs using List.reverseRecOn with
  | nil => simp [groupFold, lookupA]
  | append_singleton l a ih =>
      have hfold : groupFold (l ++ [a]) =
          insertGroup (groupFold l) (pySplitHead a)
            (joinPath search_directory a) := by
        simp [groupFold, List.foldl_append]
      rw [hfold, lookupA_insertGroup]
      by_cases hk : k = pySplitHead a
      · subst hk
        rw [if_pos rfl, ih]
        by_cases hm : pySplitHead a ∈ l.map pySplitHead
        · simp [hm, List.filter_append]
        · have hnil : l.filter (fun f => pySplitHead f = pySplitHead a) = [] := by
            rw [List.filter_eq_nil_iff]
            intro f hf
            simp only [decide_eq_true_eq]
            intro hpf
            exact hm (hpf ▸ List.mem_map_of_mem pySplitHead hf)
          simp [hm, List.filter_append, hnil]
      · rw [if_neg hk, ih]
        have hfa : (fun f => decide (pySplitHead f = k)) a = false := by
          simp only [decide_eq_false_iff_not]
          exact fun h => hk h.symm
        by_cases hm : k ∈ l.map pySplitHead
        · simp [hm, hk, List.filter_append, hfa]
        · simp [hm, hk, List.filter_append, Ne.symm hk]

theorem nodup_keysOf_files_by_pfx (listing : List String) :
    (keysOf (files_by_pfx listing)).Nodup := by
  have : files_by_pfx listing = groupFold (all_files listing) := rfl
  rw [this, keysOf_groupFold]
  exact nodup_firstOccs _

theorem mem_iff_lookupA (m : List (String × List String)) (k : String)
    (vs : List String) (hnd : (keysOf m).Nodup) :
    (k, vs) ∈ m ↔ lookupA m k = some vs := by
  induction m with
  | nil => simp [lookupA]
  | cons hd tl ih =>
      obtain ⟨k₂, vs₁⟩ := hd
      have hnd₁ : k₂ ∉ keysOf tl := by
        simpa [keysOf] using hnd.not_mem
      have hndtl : (keysOf tl).Nodup := by
        simpa [keysOf] using hnd.of_cons
      by_cases h : k₂ = k
      · subst h
        have hnot : (k₂, vs) ∉ tl := fun hmem =>
          hnd₁ (List.mem_map_of_mem Prod.fst hmem)
        constructor
        · intro hmem
          rcases List.mem_cons.mp hmem with heq | hmem₂
          · injection heq with h₁ h₂
            subst h₂
            simp [lookupA]
          · exact absurd hmem₂ hnot
        · intro hl
          have hvs : vs₁ = vs := by
            simpa [lookupA] using hl
          subst hvs
          exact List.mem_cons_self _ _
      · constructor
        · intro hmem
          rcases List.mem_cons.mp hmem with heq | hmem₂
          · exact absurd (congrArg Prod.fst heq).symm h
          · have := (ih hndtl).mp hmem₂
            simpa [lookupA, h] using this
        · intro hl
          have hl₂ : lookupA tl k = some vs := by
            simpa [lookupA, h] using hl
          exact List.mem_cons_of_mem _ ((ih hndtl).mpr hl₂)

/-! ### Lemmas about strings, prefixes and paths -/

theorem string_data_inj {s t : String} (h : s.data = t.data) : s = t := by
  cases s
  cases t
  exact congrArg String.mk h

theorem joinPath_inj {f₁ f₂ : String}
    (h : joinPath search_directory f₁ = joinPath search_directory f₂) :
    f₁ = f₂ := by
  have hd : (joinPath search_directory f₁).data
      = (joinPath search_directory f₂).data := congrArg String.data h
  simp only [joinPath, String.data_append, List.append_assoc] at hd
  exact string_data_inj
    (List.append_cancel_left (List.append_cancel_left hd))

theorem pySplitHead_data (f : String) :
    (pySplitHead f).data = f.data.takeWhile (fun c => c ≠ '_') := rfl

theorem underscore_not_mem_pySplitHead (f : String) :
    '_' ∉ (pySplitHead f).data := by
  intro hmem
  rw [pySplitHead_data] at hmem
  have := List.mem_takeWhile_imp hmem
  simp at this

theorem takeWhile_underscore_split :
    ∀ l : List Char, '_' ∈ l →
      ∃ rest, l = l.takeWhile (fun c => c ≠ '_') ++ '_' :: rest := by
  intro l
  induction l with
  | nil => intro h; simp at h
  | cons c t ih =>
      intro hmem
      by_cases hc : c = '_'
      · subst hc
        refine ⟨t, ?_⟩
        simp [List.takeWhile_cons]
      · have hmem₂ : '_' ∈ t := by
          rcases List.mem_cons.mp hmem with h | h
          · exact absurd h.symm hc
          · exact h
        obtain ⟨rest, hrest⟩ := ih hmem₂
        refine ⟨rest, ?_⟩
        rw [List.takeWhile_cons]
        simpa [hc] using hrest

theorem pySplitHead_of_not_mem {f : String} (h : '_' ∉ f.data) :
    pySplitHead f = f := by
  apply string_data_inj
  rw [pySplitHead_data, List.takeWhile_eq_self_iff]
  intro c hc
  have hcne : c ≠ '_' := fun hceq => h (hceq ▸ hc)
  simp [hcne]

theorem pySplitHead_eq_empty_iff {f : String} (hne : f ≠ "") :
    pySplitHead f = "" ↔ f.data.head? = some '_' := by
  have hdata : f.data ≠ [] := by
    intro hnil
    exact hne (string_data_inj (by simp [hnil]))
  obtain ⟨c, t, hct⟩ := List.exists_cons_of_ne_nil hdata
  constructor
  · intro hps
    have : (pySplitHead f).data = [] := by rw [hps]
    rw [pySplitHead_data, hct, List.takeWhile_cons] at this
    by_cases hc : c = '_'
    · rw [hct, hc]; rfl
    · simp [hc] at this
  · intro hhead
    rw [hct] at hhead
    have hc : c = '_' := by simpa using hhead
    apply string_data_inj
    rw [pySplitHead_data, hct, hc]
    simp [List.takeWhile_cons]

/-! ### Lemmas about the per-group file loop and the event trace -/

theorem processFiles_go (op : String → Dataset) (fps : List String)
    (acc : List Dataset × List MetadataRecord) :
    fps.foldl
      (fun acc fp =>
        let dataset := op fp
        ( acc.1 ++ [dataset]
        , acc.2 ++ dataset.data_vars.map (mkRecord fp) )) acc =
      ( acc.1 ++ fps.map op
      , acc.2 ++ fps.flatMap (fun fp => (op fp).data_vars.map (mkRecord fp)) ) := by
  induction fps generalizing acc with
  | nil => simp
  | cons fp rest ih => simp [ih]

theorem processFiles_eq (op : String → Dataset) (fps : List String) :
    processFiles op fps =
      ( fps.map op
      , fps.flatMap (fun fp => (op fp).data_vars.map (mkRecord fp)) ) := by
  have := processFiles_go op fps ([], [])
  simpa [processFiles] using this

theorem foldl_append_eq_flatMap {α β : Type} (f : α → List β) (l : List α)
    (acc : List β) :
    l.foldl (fun a x => a ++ f x) acc = acc ++ l.flatMap f := by
  induction l generalizing acc with
  | nil => simp
  | cons x rest ih => simp [ih]

theorem runEvents_eq (op : String → Dataset) (listing : List String) :
    runEvents op listing =
      (files_by_pfx listing).flatMap (fun g => groupEvents op g.1 g.2) := by
  have := foldl_append_eq_flatMap (fun g : String × List String =>
    groupEvents op g.1 g.2) (files_by_pfx listing) []
  simpa [runEvents] using this

theorem files_by_pfx_eq_groupFold (listing : List String) :
    files_by_pfx listing = groupFold (all_files listing) := rfl

theorem lookupA_files_by_pfx (listing : List String) (k : String) :
    lookupA (files_by_pfx listing) k =
      if k ∈ (all_files listing).map pySplitHead then
        some (((all_files listing).filter (fun f => pySplitHead f = k)).map
          (joinPath search_directory))
      else none := by
  rw [files_by_pfx_eq_groupFold, lookupA_groupFold]

theorem group_entry_of_mem {listing : List String} {f : String}
    (hf : f ∈ all_files listing) :
    (pySplitHead f,
      ((all_files listing).filter (fun g => pySplitHead g = pySplitHead f)).map
        (joinPath search_directory)) ∈ files_by_pfx listing := by
  rw [mem_iff_lookupA _ _ _ (nodup_keysOf_files_by_pfx listing),
    lookupA_files_by_pfx]
  rw [if_pos (List.mem_map_of_mem pySplitHead hf)]

theorem entry_determined {listing : List String} {k : String}
    {vs : List String} (hmem : (k, vs) ∈ files_by_pfx listing) :
    k ∈ (all_files listing).map pySplitHead ∧
      vs = ((all_files listing).filter (fun g => pySplitHead g = k)).map
        (joinPath search_directory) := by
  have hl : lookupA (files_by_pfx listing) k = some vs :=
    (mem_iff_lookupA _ _ _ (nodup_keysOf_files_by_pfx listing)).mp hmem
  rw [lookupA_files_by_pfx] at hl
  by_cases hk : k ∈ (all_files listing).map pySplitHead
  · rw [if_pos hk] at hl
    exact ⟨hk, (Option.some.injEq _ _ ▸ hl).symm⟩
  · rw [if_neg hk] at hl
    cases hl

theorem ne_empty_of_mem_all_files {listing : List String} {f : String}
    (hf : f ∈ all_files listing) : f ≠ "" := by
  intro hemp
  subst hemp
  have h := (List.mem_filter.mp hf).2
  have : pyEndsWith "" ".nc" = false := by decide
  simp [this] at h

theorem filter_eq_singleton {l : List String} {a : String}
    (hnd : l.Nodup) (ha : a ∈ l) : l.filter (fun x => x = a) = [a] := by
  induction l with
  | nil => cases ha
  | cons x t ih =>
      by_cases hx : x = a
      · subst hx
        have hnot : x ∉ t := hnd.not_mem
        have hnil : t.filter (fun y => y = x) = [] := by
          rw [List.filter_eq_nil_iff]
          intro y hy
          simp only [decide_eq_true_eq]
          intro hyx
          exact hnot (hyx ▸ hy)
        simp [List.filter_cons, hnil]
      · have hat : a ∈ t := by
          rcases List.mem_cons.mp ha with h | h
          · exact absurd h.symm hx
          · exact h
        have := ih hnd.of_cons hat
        simp [List.filter_cons, hx, this]

theorem find?_name {vars : List DataVar} {v : DataVar}
    (hnd : (vars.map DataVar.name).Nodup) (hv : v ∈ vars) :
    vars.find? (fun w => w.name = v.name) = some v := by
  induction vars with
  | nil => cases hv
  | cons w t ih =>
      rcases List.mem_cons.mp hv with heq | hmem
      · subst heq
        simp [List.find?_cons]
      · have hwn : w.name ∉ t.map DataVar.name := by
          simpa using hnd.not_mem
        have hne : (w.name = v.name) = False := by
          simp only [eq_iff_iff, iff_false]
          intro heq
          exact hwn (heq ▸ List.mem_map_of_mem DataVar.name hmem)
        have hndt : (t.map DataVar.name).Nodup := by
          simpa using hnd.of_cons
        simp [List.find?_cons, hne, ih hndt hmem]

theorem concatTime_singleton {d : Dataset}
    (hnd : (d.data_vars.map DataVar.name).Nodup) : concatTime [d] = d := by
  obtain ⟨t, vars⟩ := d
  simp only [concatTime, List.flatMap_cons, List.flatMap_nil,
    List.append_nil, Dataset.mk.injEq, true_and]
  have : ∀ v ∈ vars, ({ v with data := varData ⟨t, vars⟩ v.name } : DataVar)
      = v := by
    intro v hv
    have hfind := find?_name hnd hv
    obtain ⟨n, a, dat⟩ := v
    simp only [varData, hfind]
  calc vars.map (fun v =>
        ({ v with data := varData ⟨t, vars⟩ v.name } : DataVar))
      = vars.map id := List.map_congr_left this
    _ = vars := List.map_id vars

/-! ### The claims -/

/-- C7: discovery selects exactly the entries of the fixed input
directory whose names end with the recognised extension `.nc`,
non-recursively, with no filtering other than the extension match, and
every discovered entry is processed: its joined path appears in the
group of its prefix. -/
theorem C7_discovery_exact (listing : List String) :
    (∀ f, f ∈ all_files listing ↔ f ∈ listing ∧ pyEndsWith f ".nc" = true) ∧
    (∀ f ∈ all_files listing,
      ∃ vs, (pySplitHead f, vs) ∈ files_by_pfx listing ∧
        joinPath search_directory f ∈ vs) := by
  constructor
  · intro f
    simp [all_files, List.mem_filter]
  · intro f hf
    refine ⟨((all_files listing).filter
        (fun g => pySplitHead g = pySplitHead f)).map
        (joinPath search_directory), group_entry_of_mem hf, ?_⟩
    exact List.mem_map_of_mem _ (List.mem_filter.mpr ⟨hf, by simp⟩)

/-- C7 witness: the theorem applied to the listing
`["a_b.nc", "notes.txt"]` and the discovered file `a_b.nc`. -/
theorem C7_discovery_exact_w :
    (("a_b.nc" : String) ∈ all_files ["a_b.nc", "notes.txt"] ∧
      ("notes.txt" : String) ∉ all_files ["a_b.nc", "notes.txt"]) ∧
    ∃ vs, (pySplitHead "a_b.nc", vs) ∈ files_by_pfx ["a_b.nc", "notes.txt"] ∧
      joinPath search_directory "a_b.nc" ∈ vs := by
  have h := C7_discovery_exact ["a_b.nc", "notes.txt"]
  refine ⟨⟨(h.1 "a_b.nc").mpr ⟨by decide, by decide⟩, ?_⟩,
    h.2 "a_b.nc" ((h.1 "a_b.nc").mpr ⟨by decide, by decide⟩)⟩
  intro hmem
  have := (h.1 "notes.txt").mp hmem
  revert this
  decide

/-- C4: grouping is a proper partition of the discovered files: the
group keys are pairwise distinct, and every discovered file's joined
path belongs to exactly one entry of the grouping map. -/
theorem C4_grouping_partition (listing : List String) :
    (keysOf (files_by_pfx listing)).Nodup ∧
    ∀ f ∈ all_files listing,
      ∃! entry : String × List String,
        entry ∈ files_by_pfx listing ∧
          joinPath search_directory f ∈ entry.2 := by
  refine ⟨nodup_keysOf_files_by_pfx listing, ?_⟩
  intro f hf
  refine ⟨(pySplitHead f,
      ((all_files listing).filter (fun g => pySplitHead g = pySplitHead f)).map
        (joinPath search_directory)),
    ⟨group_entry_of_mem hf,
      List.mem_map_of_mem _ (List.mem_filter.mpr ⟨hf, by simp⟩)⟩, ?_⟩
  rintro ⟨k, vs⟩ ⟨hmem, hv⟩
  obtain ⟨hk, hvs⟩ := entry_determined hmem
  subst hvs
  obtain ⟨g, hgmem, hgeq⟩ := List.mem_map.mp hv
  have hgf : g = f := joinPath_inj hgeq
  subst hgf
  have hpg : pySplitHead g = k := by
    have := (List.mem_filter.mp hgmem).2
    simpa using this
  subst hpg
  rfl

/-- C4 witness: the theorem applied to the listing
`["a_b.nc", "a_c.nc", "b.nc"]` and the discovered file `a_b.nc`. -/
theorem C4_grouping_partition_w :
    (keysOf (files_by_pfx ["a_b.nc", "a_c.nc", "b.nc"])).Nodup ∧
    ∃! entry : String × List String,
      entry ∈ files_by_pfx ["a_b.nc", "a_c.nc", "b.nc"] ∧
        joinPath search_directory "a_b.nc" ∈ entry.2 :=
  ⟨(C4_grouping_partition ["a_b.nc", "a_c.nc", "b.nc"]).1,
    (C4_grouping_partition ["a_b.nc", "a_c.nc", "b.nc"]).2 "a_b.nc"
      (by decide)⟩

/-- C9: every discovered filename that begins with an underscore has the
empty string as its prefix, and the group keyed by the empty string
collects the joined paths of exactly the underscore-leading discovered
files (they are merged rather than kept separate). -/
theorem C9_underscore_merged (listing : List String)
    (hex : ∃ f ∈ all_files listing, f.data.head? = some '_') :
    (∀ f ∈ all_files listing, f.data.head? = some '_' →
      pySplitHead f = "") ∧
    lookupA (files_by_pfx listing) "" =
      some (((all_files listing).filter
        (fun g => g.data.head? = some '_')).map
        (joinPath search_directory)) := by
  have hempty : ∀ f ∈ all_files listing, f.data.head? = some '_' →
      pySplitHead f = "" := by
    intro f hf hhead
    exact (pySplitHead_eq_empty_iff (ne_empty_of_mem_all_files hf)).mpr hhead
  refine ⟨hempty, ?_⟩
  obtain ⟨f₀, hf₀, hhead₀⟩ := hex
  have hmem : ("" : String) ∈ (all_files listing).map pySplitHead := by
    have := hempty f₀ hf₀ hhead₀
    exact this ▸ List.mem_map_of_mem pySplitHead hf₀
  rw [lookupA_files_by_pfx, if_pos hmem]
  have hfcongr : (all_files listing).filter (fun g => pySplitHead g = "") =
      (all_files listing).filter (fun g => g.data.head? = some '_') := by
    apply List.filter_congr
    intro g hg
    simp only [decide_eq_decide]
    exact pySplitHead_eq_empty_iff (ne_empty_of_mem_all_files hg)
  rw [hfcongr]

/-- C9 witness: the theorem applied to the listing
`["_x.nc", "_y.nc", "a_b.nc"]`, whose underscore-leading files `_x.nc`
and `_y.nc` land together in the group keyed by the empty string. -/
theorem C9_underscore_merged_w :
    (∀ f ∈ all_files ["_x.nc", "_y.nc", "a_b.nc"],
      f.data.head? = some '_' → pySplitHead f = "") ∧
    lookupA (files_by_pfx ["_x.nc", "_y.nc", "a_b.nc"]) "" =
      some (((all_files ["_x.nc", "_y.nc", "a_b.nc"]).filter
        (fun g => g.data.head? = some '_')).map
        (joinPath search_directory)) :=
  C9_underscore_merged ["_x.nc", "_y.nc", "a_b.nc"]
    ⟨"_x.nc", by decide, by decide⟩

/-- C1 counterexample: for the listing `["data.nc"]` the single
discovered file contains no underscore, and its group is keyed by the
full filename `data.nc` — not by the stem `data` that the claim
requires. -/
theorem C1_counterexample :
    files_by_pfx ["data.nc"] =
      [("data.nc", ["Base Climate Data/data.nc"])] ∧
    stemOf "data.nc" = "data" ∧
    ("data.nc" : String) ≠ "data" :=
  ⟨rfl, rfl, by decide⟩

/-- C1 amended: for every discovered file the grouping prefix is the
substring of the filename before the first underscore (it contains no
underscore, is followed by an underscore when the filename has one, and
is the whole filename otherwise); a discovered file whose filename
contains no underscore is keyed by its full filename including the
extension, and forms a singleton group when no other discovered file
shares that prefix. -/
theorem C1_prefix_amended (listing : List String) (f : String)
    (hf : f ∈ all_files listing) :
    '_' ∉ (pySplitHead f).data ∧
    ('_' ∈ f.data → ∃ rest, f.data = (pySplitHead f).data ++ '_' :: rest) ∧
    ('_' ∉ f.data → pySplitHead f = f) ∧
    ('_' ∉ f.data → listing.Nodup →
      (∀ g ∈ all_files listing, g ≠ f → pySplitHead g ≠ f) →
      (f, [joinPath search_directory f]) ∈ files_by_pfx listing) := by
  refine ⟨underscore_not_mem_pySplitHead f, ?_, ?_, ?_⟩
  · intro hu
    exact (pySplitHead_data f) ▸ takeWhile_underscore_split f.data hu
  · intro hu
    exact pySplitHead_of_not_mem hu
  · intro hu hnd hsolo
    have hpf : pySplitHead f = f := pySplitHead_of_not_mem hu
    have hndall : (all_files listing).Nodup := hnd.filter _
    have hmem : f ∈ (all_files listing).map pySplitHead :=
      hpf ▸ List.mem_map_of_mem pySplitHead hf
    have hfilter : (all_files listing).filter (fun g => pySplitHead g = f) =
        [f] := by
      have hcongr : (all_files listing).filter (fun g => pySplitHead g = f) =
          (all_files listing).filter (fun g => g = f) := by
        apply List.filter_congr
        intro g hg
        simp only [decide_eq_decide]
        constructor
        · intro hpg
          by_contra hne
          exact hsolo g hg hne hpg
        · intro hgf
          subst hgf
          exact hpf
      rw [hcongr]
      exact filter_eq_singleton hndall hf
    rw [mem_iff_lookupA _ _ _ (nodup_keysOf_files_by_pfx listing),
      lookupA_files_by_pfx, if_pos hmem, hfilter]
    rfl

/-- C1 witness: the amended theorem applied to the listing
`["q.nc", "ab_c.nc"]` and its underscore-free discovered file `q.nc`. -/
theorem C1_prefix_amended_w :
    pySplitHead "q.nc" = "q.nc" ∧
    ("q.nc", [joinPath search_directory "q.nc"]) ∈
      files_by_pfx ["q.nc", "ab_c.nc"] := by
  have h := C1_prefix_amended ["q.nc", "ab_c.nc"] "q.nc" (by decide)
  exact ⟨h.2.2.1 (by decide), h.2.2.2 (by decide) (by decide) (by decide)⟩

/-- C2: for a group with zero variables the output FILENAME is
`combined_<prefix>_climate_data.nc`, as the claim states; but contrary
to the claim the fallback branch prepends a path separator that the
primary branch does not have, so the two branches do not name the same
directory: the fallback path starts with a slash while the primary path
starts with the letter `s` of the relative directory. -/
theorem C2_fallback_slash :
    output_path "tempA" [] =
      "/src/data/Processed Climate Data/combined_tempA_climate_data.nc" ∧
    basename (output_path "tempA" []) = "combined_tempA_climate_data.nc" ∧
    output_path "tempA"
        [{ file_name := "tempA_2020.nc", variable_name := "temp",
           attributes := [] }] =
      "src/data/Processed Climate Data/combined_tempA_temp_data.nc" ∧
    (output_path "tempA" []).data.head? = some '/' ∧
    (output_path "tempA"
        [{ file_name := "tempA_2020.nc", variable_name := "temp",
           attributes := [] }]).data.head? = some 's' :=
  ⟨rfl, rfl, rfl, rfl, rfl⟩

/-- C3 counterexample: the group `x` with files `x_A.nc` and `x_B.nc`
both CONTAINS the variable `temp`, but `x_A.nc` declares `pressure`
first, so the output filename is `combined_x_pressure_data.nc`, not
`combined_x_temp_data.nc` as the claim requires. -/
theorem C3_counterexample :
    "temp" ∈ (c3open "Base Climate Data/x_A.nc").data_vars.map DataVar.name ∧
    "temp" ∈ (c3open "Base Climate Data/x_B.nc").data_vars.map DataVar.name ∧
    output_path "x" (processFiles c3open
        ["Base Climate Data/x_A.nc", "Base Climate Data/x_B.nc"]).2 =
      "src/data/Processed Climate Data/combined_x_pressure_data.nc" ∧
    output_path "x" (processFiles c3open
        ["Base Climate Data/x_A.nc", "Base Climate Data/x_B.nc"]).2 ≠
      "src/data/Processed Climate Data/combined_x_temp_data.nc" :=
  ⟨by decide, by decide, rfl, by decide⟩

/-- C3 amended: for every group that yields at least one metadata entry
the output path is determined solely by the group key and the FIRST
recorded variable name, following the pattern
`combined_<prefix>_<first variable>_data.nc` under the
`Processed Climate Data` directory; in particular, for a group with
files `[A, B]` where the first variable declared in `A` is `temp`, the
output filename is `combined_<prefix>_temp_data.nc`. -/
theorem C3_output_amended (op : String → Dataset) (k : String) :
    (∀ fps entry rest, (processFiles op fps).2 = entry :: rest →
      output_path k (processFiles op fps).2 =
        "src/data/Processed Climate Data/combined_" ++ k ++ "_"
          ++ entry.variable_name ++ "_data.nc") ∧
    (∀ a b : String,
      ((op a).data_vars.map DataVar.name).head? = some "temp" →
      output_path k (processFiles op [a, b]).2 =
        "src/data/Processed Climate Data/combined_" ++ k
          ++ "_temp_data.nc") := by
  constructor
  · intro fps entry rest h
    rw [h]
    rfl
  · intro a b hhead
    cases hvars : (op a).data_vars with
    | nil =>
        rw [hvars] at hhead
        cases hhead
    | cons v vs =>
        rw [hvars] at hhead
        have hname : v.name = "temp" := by simpa using hhead
        rw [processFiles_eq]
        simp only [List.flatMap_cons, List.flatMap_nil, List.append_nil,
          hvars, List.map_cons, List.cons_append]
        rw [output_path, mkRecord, hname]
        have hlit : ("_" : String) ++ ("temp" ++ "_data.nc") =
          "_temp_data.nc" := rfl
        simp only [String.append_assoc, hlit]

/-- C3 witness: the amended theorem applied to the concrete group `x`:
the first-entry formula on the file order `[x_A.nc, x_B.nc]` (first
variable `pressure`), and the `temp` instance on the file order
`[x_B.nc, x_A.nc]` (first variable of the first file is `temp`). -/
theorem C3_output_amended_w :
    output_path "x" (processFiles c3open
        ["Base Climate Data/x_A.nc", "Base Climate Data/x_B.nc"]).2 =
      "src/data/Processed Climate Data/combined_" ++ "x" ++ "_"
        ++ "pressure" ++ "_data.nc" ∧
    output_path "x" (processFiles c3open
        ["Base Climate Data/x_B.nc", "Base Climate Data/x_A.nc"]).2 =
      "src/data/Processed Climate Data/combined_" ++ "x"
        ++ "_temp_data.nc" := by
  constructor
  · exact (C3_output_amended c3open "x").1
      ["Base Climate Data/x_A.nc", "Base Climate Data/x_B.nc"]
      { file_name := "x_A.nc", variable_name := "pressure", attributes := [] }
      [ { file_name := "x_A.nc", variable_name := "temp", attributes := [] }
      , { file_name := "x_B.nc", variable_name := "temp", attributes := [] } ]
      (by decide)
  · exact (C3_output_amended c3open "x").2
      "Base Climate Data/x_B.nc" "Base Climate Data/x_A.nc" (by decide)

/-- C5: for every group the accumulated metadata list is exactly one
record per (file, variable) pair in file-then-variable order — each
record holding the file's base name, the variable's name and its
attribute mapping — so its length is the sum over the group's files of
the number of variables in each file. -/
theorem C5_metadata_records (op : String → Dataset) (fps : List String) :
    (processFiles op fps).2 =
      fps.flatMap (fun fp => (op fp).data_vars.map (fun v =>
        { file_name := basename fp
        , variable_name := v.name
        , attributes := v.attrs })) ∧
    (processFiles op fps).2.length =
      (fps.map (fun fp => (op fp).data_vars.length)).sum := by
  have h₁ : (processFiles op fps).2 =
      fps.flatMap (fun fp => (op fp).data_vars.map (mkRecord fp)) := by
    rw [processFiles_eq]
  refine ⟨h₁, ?_⟩
  rw [h₁]
  clear h₁
  induction fps with
  | nil => rfl
  | cons fp rest ih =>
      simp only [List.flatMap_cons, List.length_append, List.length_map,
        List.map_cons, List.sum_cons, ih]

/-- C6: concatenating a singleton group along the time axis is the
identity — for a group consisting of exactly one file, the combined
dataset equals that file's dataset (given that the file's variable
names are distinct, as dataset variables are keyed by name). -/
theorem C6_concat_singleton (op : String → Dataset) (fp : String)
    (hnd : ((op fp).data_vars.map DataVar.name).Nodup) :
    concatTime (processFiles op [fp]).1 = op fp := by
  have h : (processFiles op [fp]).1 = [op fp] := by
    rw [processFiles_eq]
    simp
  rw [h]
  exact concatTime_singleton hnd

/-- C6 witness: the theorem applied to a one-file group holding a single
`temp` variable. -/
theorem C6_concat_singleton_w :
    concatTime (processFiles
      (fun _ => (⟨[1, 2], [⟨"temp", [("units", "K")], [5, 6]⟩]⟩ : Dataset))
      ["Base Climate Data/t_a.nc"]).1 =
      (⟨[1, 2], [⟨"temp", [("units", "K")], [5, 6]⟩]⟩ : Dataset) :=
  C6_concat_singleton
    (fun _ => (⟨[1, 2], [⟨"temp", [("units", "K")], [5, 6]⟩]⟩ : Dataset))
    "Base Climate Data/t_a.nc" (by decide)

/-- C8: the routine handles no error: a file-open failure aborts the
per-group file loop at the failing file; an open failure, a
concatenation failure or a write failure each aborts the group's
processing with the same error; and when any group fails, the whole run
stops with that error — independently of the groups still pending, so
there is no retry and no skip-and-continue — while the output artifacts
of the groups already processed remain on disk (no cross-group
rollback). -/
theorem C8_fault_propagation
    (op : String → Except String Dataset)
    (con : List Dataset → Except String Dataset)
    (wr : String → Dataset → Except String Unit)
    (e : String) :
    (∀ fps₁ fp fps₂ acc, op fp = Except.error e →
      (∀ f ∈ fps₁, ∃ d, op f = Except.ok d) →
      openFilesE op (fps₁ ++ fp :: fps₂) acc = Except.error e) ∧
    (∀ g : String × List String,
      openFilesE op g.2 ([], []) = Except.error e →
      stepGroupE op con wr g = Except.error e) ∧
    (∀ (g : String × List String) acc₁,
      openFilesE op g.2 ([], []) = Except.ok acc₁ →
      con acc₁.1 = Except.error e →
      stepGroupE op con wr g = Except.error e) ∧
    (∀ (g : String × List String) acc₁ combined,
      openFilesE op g.2 ([], []) = Except.ok acc₁ →
      con acc₁.1 = Except.ok combined →
      wr (output_path g.1 acc₁.2) combined = Except.error e →
      stepGroupE op con wr g = Except.error e) ∧
    (∀ gs₁ (g : String × List String) gs₂ (outs written : List String),
      gs₁.map (stepGroupE op con wr) =
        outs.map (Except.ok : String → Except String String) →
      stepGroupE op con wr g = Except.error e →
      runGroupsE (stepGroupE op con wr) (gs₁ ++ g :: gs₂) written =
        (written ++ outs, some e)) := by
  refine ⟨?_, ?_, ?_, ?_, ?_⟩
  · intro fps₁
    induction fps₁ with
    | nil =>
        intro fp fps₂ acc hfp _
        simp [openFilesE, hfp]
    | cons f t ih =>
        intro fp fps₂ acc hfp hok
        obtain ⟨d, hd⟩ := hok f (List.mem_cons_self f t)
        have hrest : ∀ f₁ ∈ t, ∃ d₁, op f₁ = Except.ok d₁ := fun f₁ h₁ =>
          hok f₁ (List.mem_cons_of_mem f h₁)
        simp only [List.cons_append, openFilesE, hd]
        exact ih fp fps₂ _ hfp hrest
  · intro g hopen
    simp [stepGroupE, hopen]
  · intro g acc₁ hopen hcon
    simp [stepGroupE, hopen, hcon]
  · intro g acc₁ combined hopen hcon hwr
    simp [stepGroupE, hopen, hcon, hwr]
  · intro gs₁
    induction gs₁ with
    | nil =>
        intro g gs₂ outs written hmap hg
        have houts : outs = [] := by
          cases outs with
          | nil => rfl
          | cons o t => cases hmap
        subst houts
        simp [runGroupsE, hg]
    | cons g₁ t ih =>
        intro g gs₂ outs written hmap hg
        cases outs with
        | nil => cases hmap
        | cons o outs₁ =>
            simp only [List.map_cons, List.cons.injEq] at hmap
            obtain ⟨hg₁, hmap₁⟩ := hmap
            simp only [List.cons_append, runGroupsE, hg₁]
            have hrun := ih g gs₂ outs₁ (written ++ [o]) hmap₁ hg
            simpa using hrun

/-- C8 witness: the run-level part of the theorem applied to the
concrete oracles in which opening `b_1.nc` raises `boom`: the run over
the groups `a`, `b`, `c` writes the artifact of group `a`, aborts at
group `b` with the error, and never processes group `c`. -/
theorem C8_fault_propagation_w :
    runGroupsE (stepGroupE c8op c8con c8wr)
      [ ("a", ["Base Climate Data/a_1.nc"])
      , ("b", ["Base Climate Data/b_1.nc"])
      , ("c", ["Base Climate Data/c_1.nc"]) ] [] =
      (["/src/data/Processed Climate Data/combined_a_climate_data.nc"],
        some "boom") := by
  have h := (C8_fault_propagation c8op c8con c8wr "boom").2.2.2.2
    [("a", ["Base Climate Data/a_1.nc"])]
    ("b", ["Base Climate Data/b_1.nc"])
    [("c", ["Base Climate Data/c_1.nc"])]
    ["/src/data/Processed Climate Data/combined_a_climate_data.nc"] []
    rfl rfl
  simpa using h

/-- C10: groups are processed, and their output artifact written and
report printed, in order of the first occurrence of each prefix among
the discovered files (the insertion order of the grouping map): the
trace of the run is the concatenation of the per-group event blocks in
map order, and within each group's block the write of the output file
comes first, followed only by print events. -/
theorem C10_processing_order (op : String → Dataset)
    (listing : List String) :
    keysOf (files_by_pfx listing) =
      firstOccs ((all_files listing).map pySplitHead) ∧
    runEvents op listing =
      (files_by_pfx listing).flatMap (fun g => groupEvents op g.1 g.2) ∧
    ∀ g ∈ files_by_pfx listing,
      ∃ rest, groupEvents op g.1 g.2 =
        Event.write (output_path g.1 (processFiles op g.2).2)
          (concatTime (processFiles op g.2).1) :: rest ∧
        ∀ ev ∈ rest, ev.isPrint = true := by
  refine ⟨?_, runEvents_eq op listing, ?_⟩
  · rw [files_by_pfx_eq_groupFold, keysOf_groupFold]
  · intro g _
    refine ⟨Event.printSaved g.1
        (output_path g.1 (processFiles op g.2).2) :: Event.printHeader
        :: (processFiles op g.2).2.map Event.printEntry, rfl, ?_⟩
    intro ev hev
    rcases List.mem_cons.mp hev with h | hev₁
    · subst h
      rfl
    rcases List.mem_cons.mp hev₁ with h | hev₂
    · subst h
      rfl
    obtain ⟨r, _, hr⟩ := List.mem_map.mp hev₂
    subst hr
    rfl

/-- C10 witness: the theorem applied to the listing
`["b_1.nc", "a_1.nc", "b_2.nc"]` (group keys in first-occurrence order
`b`, `a`) and the group `b` of the resulting map, with a constant
open-dataset oracle. -/
theorem C10_processing_order_w :
    keysOf (files_by_pfx ["b_1.nc", "a_1.nc", "b_2.nc"]) =
      firstOccs ((all_files ["b_1.nc", "a_1.nc", "b_2.nc"]).map
        pySplitHead) ∧
    ∃ rest, groupEvents (fun _ => (⟨[], []⟩ : Dataset)) "b"
        ["Base Climate Data/b_1.nc", "Base Climate Data/b_2.nc"] =
      Event.write (output_path "b" (processFiles
          (fun _ => (⟨[], []⟩ : Dataset))
          ["Base Climate Data/b_1.nc", "Base Climate Data/b_2.nc"]).2)
        (concatTime (processFiles (fun _ => (⟨[], []⟩ : Dataset))
          ["Base Climate Data/b_1.nc", "Base Climate Data/b_2.nc"]).1)
        :: rest ∧
      ∀ ev ∈ rest, ev.isPrint = true :=
  ⟨(C10_processing_order (fun _ => (⟨[], []⟩ : Dataset))
      ["b_1.nc", "a_1.nc", "b_2.nc"]).1,
    (C10_processing_order (fun _ => (⟨[], []⟩ : Dataset))
      ["b_1.nc", "a_1.nc", "b_2.nc"]).2.2
      ("b", ["Base Climate Data/b_1.nc", "Base Climate Data/b_2.nc"])
      (by decide)⟩

end ClimateClean
